import Mathlib

/-!
Verification of the oh-my-claudecode website's two non-trivial subsystems
against their natural-language specification:

* the documentation search scorer (`fuzzySearch` / `fuzzyMatch` in the
  search widget), and
* the layered TTL cache (`storageService`: `set` / `get` /
  `getStaleWhileRevalidate` with its pending-revalidation guard,
  localStorage tier, in-memory tier with FIFO eviction, and Cache API tier).

The JavaScript source is shallowly embedded: JS strings are `List Char`,
epoch-millisecond clocks are explicit `Nat` arguments, promises are modelled
by passing the eventual outcome of the caller-supplied `fetchFn` as an
`Except Unit Value`, and the synchronous prefix of each async operation is a
pure state transformer on `CacheState`.  Modelling conventions that lose no
generality for the verified claims are recorded in the doc comment of each
definition.
-/

set_option maxHeartbeats 1000000

namespace OMC

/-- Lowercasing of a JS string (modelled on its character list); models
`String.prototype.toLowerCase`, which on the ASCII range agrees with
`Char.toLower` applied characterwise. -/
def lowerList (l : List Char) : List Char := l.map Char.toLower

/-- Whitespace class of the JS regex `\s`, restricted to the ASCII range:
space, tab, line feed, carriage return, vertical tab, form feed. -/
def isWsChar (c : Char) : Bool :=
  c = ' ' || c = '\t' || c = '\n' || c = '\r' || c = '\x0b' || c = '\x0c'

mutual

/-- Scanner for `String.prototype.split(/\s+/)` while inside a chunk;
`acc` holds the current chunk reversed.  Together with `splitWsSkip` this
reproduces JS behaviour including the empty chunks produced at a leading or
trailing whitespace run. -/
def splitWsAux : List Char → List Char → List (List Char)
  | [], acc => [acc.reverse]
  | c :: cs, acc =>
    if isWsChar c then acc.reverse :: splitWsSkip cs else splitWsAux cs (c :: acc)

/-- Scanner for `String.prototype.split(/\s+/)` while consuming a
whitespace run. -/
def splitWsSkip : List Char → List (List Char)
  | [] => [[]]
  | c :: cs => if isWsChar c then splitWsSkip cs else splitWsAux cs [c]

end

/-- Model of `queryLower.split(/\s+/)` from `fuzzySearch`. -/
def splitWs (l : List Char) : List (List Char) := splitWsAux l []

/-- Substring test modelling `String.prototype.includes`: scan every
position for the pattern occurring as a prefix of the remaining text. -/
def listIncludes : List Char → List Char → Bool
  | [], p => p.isEmpty
  | c :: ts, p => p.isPrefixOf (c :: ts) || listIncludes ts p

/-- Word-character class of the JS regex `\w` / `\b`: `[A-Za-z0-9_]`. -/
def isWordChar (c : Char) : Bool := c.isAlphanum || c = '_'

/-- Whether the character at position `i` of `text` is a word character
(false past the end of the string). -/
def charIsWordAt (text : List Char) (i : Nat) : Bool :=
  match text[i]? with
  | some c => isWordChar c
  | none => false

/-- JS regex word-boundary assertion `\b` at position `i` of `text`:
exactly one of the two neighbouring positions holds a word character. -/
def boundaryAt (text : List Char) (i : Nat) : Bool :=
  (decide (0 < i) && charIsWordAt text (i - 1)) != charIsWordAt text i

/-- Match of one regex atom of the word pattern against one text
character, under the `i` flag: `.` is the wildcard (matching anything but
a line terminator), any other character matches itself case-insensitively.
The pattern character is one of the already-lowercased query words that
`fuzzySearch` interpolates into `new RegExp('\\b' + word, 'i')`, so only
lowercased pattern letters arise.  Regex metacharacters other than `.`
(quantifiers, anchors, groups, classes, escapes, braces, alternation) are
outside the model: on those the RegExp constructor can even throw a
SyntaxError, which no total score function represents. -/
def atomMatches (pc tc : Char) : Bool :=
  if pc = '.' then !(tc = '\n' || tc = '\r') else Char.toLower tc = pc

/-- Sequential atom-by-atom match of the word pattern against a suffix of
the text. -/
def atomsMatch : List Char → List Char → Bool
  | [], _ => true
  | _ :: _, [] => false
  | p :: ps, t :: ts => atomMatches p t && atomsMatch ps ts

/-- Model of `new RegExp('\\b' + word, 'i').test(text)` from `fuzzySearch`:
some position of `text` carries a word boundary followed by a match of the
word's atoms (see `atomMatches` for the modelled regex fragment). -/
def wordBoundaryTest (text word : List Char) : Bool :=
  (List.range (text.length + 1)).any (fun i => boundaryAt text i && atomsMatch word (text.drop i))

/-- Case-insensitive literal occurrence of `word` starting at position `i`
of `text`, as the specification's phrase "the word occurs at a word
boundary" reads the regex. -/
def literalMatchesAt (text word : List Char) (i : Nat) : Bool :=
  word.isPrefixOf ((lowerList text).drop i)

/-- Word-at-a-boundary test with the word taken literally — the reading
the specification sentence gives of the `\b` regex bonus. -/
def literalBoundaryTest (text word : List Char) : Bool :=
  (List.range (text.length + 1)).any (fun i => boundaryAt text i && literalMatchesAt text word i)

/-- Characters that are metacharacters of JS regex syntax; on words free
of them the interpolated `\b`-regex treats the word literally. -/
def isRegexMeta (c : Char) : Bool :=
  c = '.' || c = '*' || c = '+' || c = '?' || c = '^' || c = '$' ||
  c = '(' || c = ')' || c = '[' || c = ']' || c = '\x7b' || c = '\x7d' ||
  c = '|' || c = '\\'

/-- Two-pointer ordered-subsequence scan, translated from the widget's
`fuzzyMatch(text, pattern)`: the text pointer always advances, the pattern
pointer advances on a character match, success iff the pattern is
exhausted. -/
def fuzzyMatch : List Char → List Char → Bool
  | _, [] => true
  | [], _ :: _ => false
  | t :: ts, p :: ps => if t = p then fuzzyMatch ts ps else fuzzyMatch ts (p :: ps)

/-- Search index entry.  The display-only fields of the widget's entries
(`type`, `id`, `context`) are omitted: they do not enter `fuzzySearch`
scoring, filtering or ordering. -/
structure IndexEntry where
  text : List Char
  weight : Int
deriving DecidableEq

/-- Stable insertion of a scored result after all strictly higher-scoring
elements and before every element of equal or lower score; folded from the
right, earlier entries therefore stay ahead of equal-scoring later ones,
as the stable JS `Array.prototype.sort` with comparator
`(a, b) => b.score - a.score` keeps them. -/
def insertScored (p : IndexEntry × Int) : List (IndexEntry × Int) → List (IndexEntry × Int)
  | [] => [p]
  | q :: qs => if q.2 ≤ p.2 then p :: q :: qs else q :: insertScored p qs

/-- Descending stable sort by score, modelling
`results.sort((a, b) => b.score - a.score)`. -/
def sortByScoreDesc (l : List (IndexEntry × Int)) : List (IndexEntry × Int) :=
  l.foldr insertScored []

/-- Score accumulation for one index entry, translated from the body of the
`this.index.forEach` loop of `fuzzySearch`: exact-match bonus (+10, +5 more
on a prefix match), per-word substring (+3) and word-boundary (+2) bonuses,
fuzzy subsequence bonus (+2), finally multiplied by the entry weight. -/
def entryScore (queryLower : List Char) (queryWords : List (List Char)) (item : IndexEntry) : Int :=
  let textLower := lowerList item.text
  let score : Int := 0
  let score := if listIncludes textLower queryLower then
      (let score := score + 10
       if queryLower.isPrefixOf textLower then score + 5 else score)
    else score
  let score := queryWords.foldl (fun acc word =>
      if listIncludes textLower word then
        (let acc := acc + 3
         if wordBoundaryTest item.text word then acc + 2 else acc)
      else acc) score
  let score := if fuzzyMatch textLower queryLower then score + 2 else score
  score * item.weight

/-- Translation of the widget's `fuzzySearch(query)`: lowercase the query,
split it on whitespace runs, push every entry scoring strictly above zero,
sort descending by score, return the first `maxResults` results. -/
def fuzzySearch (query : List Char) (index : List IndexEntry) (maxResults : Nat) :
    List (IndexEntry × Int) :=
  let queryLower := lowerList query
  let queryWords := splitWs queryLower
  let results := index.foldl (fun rs item =>
      let score := entryScore queryLower queryWords item
      if 0 < score then rs ++ [(item, score)] else rs) []
  (sortByScoreDesc results).take maxResults

/-- Default resolution of the widget's `maxResults` option, modelling
`options.maxResults || 10` from the constructor. -/
def initMaxResults : Option Nat → Nat
  | none => 10
  | some n => if n = 0 then 10 else n

/-- Score of one entry exactly as the specification sentence states it: a
sum of independent bonuses (+10 contains, +5 prefix, per word +3 substring
and +2 for the word occurring literally at a word boundary, +2
ordered-subsequence match), multiplied by the entry weight.  The
subsequence bonus is phrased through `List.Sublist` and the boundary bonus
through the literal reading of the `\b` regex. -/
def claimScore (query : List Char) (item : IndexEntry) : Int :=
  let q := lowerList query
  let t := lowerList item.text
  ((if listIncludes t q then 10 else 0) +
   (if q.isPrefixOf t then 5 else 0) +
   ((splitWs q).map (fun w =>
      (if listIncludes t w then 3 else 0) +
      (if literalBoundaryTest item.text w then 2 else 0))).sum +
   (if List.Sublist q t then 2 else 0)) * item.weight

/-- Result list as the specification sentence states it: score every entry
by `claimScore`, discard scores `≤ 0`, sort descending, keep the first
`maxResults`. -/
def claimResults (query : List Char) (index : List IndexEntry) (maxResults : Nat) :
    List (IndexEntry × Int) :=
  (sortByScoreDesc
    ((index.map (fun e => (e, claimScore query e))).filter
      (fun p => !decide (p.2 ≤ 0)))).take maxResults

/-! ## Layered cache (`storageService`)

JSON serialization is the identity on the JSON-serializable values the data
model admits (`JSON.parse (JSON.stringify v) = v`), so the stores hold
wrapped entries directly and the value type is an arbitrary `Value : Type`.
`undefined` is not JSON-serializable and is excluded by the data model
(`CacheEntry.data : T`), so wrapped entries always carry a data value and
the source's `wrapped.data !== undefined` guards are vacuously true.
localStorage unavailability (disabled storage) is one boolean of the state
governing both reads and writes; a mid-stream quota failure that leaves
stale readable data behind is outside the model.  `Date.now()` is an
explicit `now : Nat` argument. -/

/-- Wrapped cache entry, modelling `{ data, timestamp: Date.now(), ttl }`. -/
structure WrappedData (Value : Type) where
  data : Value
  timestamp : Nat
  ttl : Nat
deriving DecidableEq

/-- Association list with JS-`Map` semantics: `mapSet` overwrites in place
(keeping insertion position) or appends a fresh key at the end. -/
def mapSet {Value : Type} : List (String × WrappedData Value) → String → WrappedData Value →
    List (String × WrappedData Value)
  | [], k, v => [(k, v)]
  | p :: ps, k, v => if p.1 = k then (k, v) :: ps else p :: mapSet ps k v

/-- Lookup in an association list, modelling `Map.prototype.get` (and
object lookup in the localStorage model). -/
def mapLookup {Value : Type} : List (String × WrappedData Value) → String →
    Option (WrappedData Value)
  | [], _ => none
  | p :: ps, k => if p.1 = k then some p.2 else mapLookup ps k

/-- Deletion of the first binding of a key, modelling `Map.prototype.delete`
(keys are unique in a JS `Map`). -/
def mapDelete {Value : Type} : List (String × WrappedData Value) → String →
    List (String × WrappedData Value)
  | [], _ => []
  | p :: ps, k => if p.1 = k then ps else p :: mapDelete ps k

/-- Cache-layer state: the three backing tiers, their availability flags,
and the pending-revalidation guard set (`pendingRevalidations`). -/
structure CacheState (Value : Type) where
  localStore : List (String × WrappedData Value)
  lsAvailable : Bool
  memoryCache : List (String × WrappedData Value)
  cacheAPIStore : List (String × WrappedData Value)
  hasCacheAPI : Bool
  pendingRevalidations : List String
deriving DecidableEq

namespace StorageService

/-- Default TTL constant `DEFAULT_TTL = 5 * 60 * 1000` milliseconds. -/
def DEFAULT_TTL : Nat := 5 * 60 * 1000

/-- Namespaced cache key, modelling `getCacheKey`. -/
def getCacheKey (key : String) : String := "omc:" ++ key

/-- Translation of `wrapData(data, ttl)`; `ttl || DEFAULT_TTL` replaces a
falsy (zero) ttl by the default. -/
def wrapData {Value : Type} (data : Value) (ttl : Nat) (now : Nat) : WrappedData Value :=
  { data := data, timestamp := now, ttl := if ttl = 0 then DEFAULT_TTL else ttl }

/-- Translation of `isExpired`: a missing entry or falsy timestamp counts
as expired, otherwise the entry is expired once `now - timestamp > ttl`
(a clock earlier than the timestamp gives a non-positive age in JS and a
zero age under truncated subtraction; both compare the same way here). -/
def isExpired {Value : Type} (w : Option (WrappedData Value)) (now : Nat) : Bool :=
  match w with
  | none => true
  | some w => if w.timestamp = 0 then true else decide (w.ttl < now - w.timestamp)

/-- Translation of `isStale`: stale once `now - timestamp > ttl * 0.8`.
The comparison `age > 0.8 * ttl` is taken in exact arithmetic as
`5 * age > 4 * ttl`; for the integral millisecond values involved this is
the comparison the JS code denotes. -/
def isStale {Value : Type} (w : Option (WrappedData Value)) (now : Nat) : Bool :=
  match w with
  | none => true
  | some w => if w.timestamp = 0 then true else decide (4 * w.ttl < 5 * (now - w.timestamp))

/-- Translation of `setLocalStorage`: serialize and store under the
namespaced key, reporting `false` when localStorage is unavailable. -/
def setLocalStorage {Value : Type} (st : CacheState Value) (key : String)
    (w : WrappedData Value) : Bool × CacheState Value :=
  if st.lsAvailable then
    (true, { st with localStore := mapSet st.localStore (getCacheKey key) w })
  else
    (false, st)

/-- Translation of `getLocalStorage`: parse the stored entry, `none` when
absent or when localStorage is unavailable (the catch branch). -/
def getLocalStorage {Value : Type} (st : CacheState Value) (key : String) :
    Option (WrappedData Value) :=
  if st.lsAvailable then mapLookup st.localStore (getCacheKey key) else none

/-- Translation of `removeLocalStorage`. -/
def removeLocalStorage {Value : Type} (st : CacheState Value) (key : String) :
    CacheState Value :=
  if st.lsAvailable then
    { st with localStore := mapDelete st.localStore (getCacheKey key) }
  else
    st

/-- Translation of `setMemoryCache`: `Map.set`, then if the map holds more
than 100 entries delete `memoryCache.keys().next().value`, the
earliest-inserted key (the head of the insertion-ordered list). -/
def setMemoryCache {Value : Type} (st : CacheState Value) (key : String)
    (w : WrappedData Value) : CacheState Value :=
  let m := mapSet st.memoryCache (getCacheKey key) w
  if 100 < m.length then
    { st with memoryCache :=
        match m with
        | [] => []
        | p :: _ => mapDelete m p.1 }
  else
    { st with memoryCache := m }

/-- Translation of `getMemoryCache`. -/
def getMemoryCache {Value : Type} (st : CacheState Value) (key : String) :
    Option (WrappedData Value) :=
  mapLookup st.memoryCache (getCacheKey key)

/-- Translation of `setCacheAPI`: best-effort write to the Cache API tier,
a no-op (returning `false`) when the Cache API is unavailable. -/
def setCacheAPI {Value : Type} (st : CacheState Value) (key : String)
    (w : WrappedData Value) : CacheState Value :=
  if st.hasCacheAPI then
    { st with cacheAPIStore := mapSet st.cacheAPIStore (getCacheKey key) w }
  else
    st

/-- Translation of `getCacheAPI`. -/
def getCacheAPI {Value : Type} (st : CacheState Value) (key : String) :
    Option (WrappedData Value) :=
  if st.hasCacheAPI then mapLookup st.cacheAPIStore (getCacheKey key) else none

/-- Translation of the public `set(key, data, ttl = DEFAULT_TTL)`: wrap,
try localStorage first (mirroring to the Cache API on success), otherwise
fall back to the memory cache; resolves `true` on both paths. -/
def set {Value : Type} (key : String) (data : Value) (ttl : Nat) (now : Nat)
    (st : CacheState Value) : Bool × CacheState Value :=
  let wrapped := wrapData data ttl now
  match setLocalStorage st key wrapped with
  | (true, st1) => (true, setCacheAPI st1 key wrapped)
  | (false, st1) => (true, setMemoryCache st1 key wrapped)

/-- Two-tier synchronous lookup `getLocalStorage(key) || getMemoryCache(key)`
shared by `get` and `getStaleWhileRevalidate`. -/
def lookupTiers {Value : Type} (st : CacheState Value) (key : String) :
    Option (WrappedData Value) :=
  match getLocalStorage st key with
  | some w => some w
  | none => getMemoryCache st key

/-- Translation of the public synchronous `get(key)`: localStorage first,
memory-cache fallback, `none` when absent or expired.  The source performs
no writes, which is why this is a pure reader. -/
def get {Value : Type} (key : String) (now : Nat) (st : CacheState Value) : Option Value :=
  match lookupTiers st key with
  | none => none
  | some w => if isExpired (some w) now then none else some w.data

/-- Translation of the public `getAsync(key)`: the synchronous path first,
then the Cache API tier, back-filling localStorage on a non-expired hit. -/
def getAsync {Value : Type} (key : String) (now : Nat) (st : CacheState Value) :
    Option Value × CacheState Value :=
  match get key now st with
  | some v => (some v, st)
  | none =>
    match getCacheAPI st key with
    | some w =>
      if isExpired (some w) now then (none, st)
      else (some w.data, (setLocalStorage st key w).2)
    | none => (none, st)

/-- Synchronous prefix of `revalidateInBackground(key, fetchFn, ...)`: the
guard check, the guard insertion, and the start of the `fetchFn()` call all
run before the first suspension point.  Returns whether a background fetch
was actually started. -/
def revalidateStart {Value : Type} (key : String) (st : CacheState Value) :
    Bool × CacheState Value :=
  if st.pendingRevalidations.contains key then (false, st)
  else (true, { st with pendingRevalidations := st.pendingRevalidations ++ [key] })

/-- Continuation of `revalidateInBackground` once the started fetch
settles: on success write through with `StorageService.set` (the `onUpdate`
callback is an external effect carrying no cache state); in all cases the
`finally` block removes the key from the guard set. -/
def revalidateFinish {Value : Type} (key : String) (outcome : Except Unit Value)
    (ttl : Nat) (now : Nat) (st : CacheState Value) : CacheState Value :=
  match outcome with
  | .ok fresh =>
    let st1 := (set key fresh ttl now st).2
    { st1 with pendingRevalidations := st1.pendingRevalidations.erase key }
  | .error _ =>
    { st with pendingRevalidations := st.pendingRevalidations.erase key }

/-- Observable outcome of one `getStaleWhileRevalidate` call: what the
returned promise settles to, how many calls to `fetchFn` the synchronous
part started, whether the caller's promise awaited `fetchFn`, and the cache
state at the point the promise settles to the caller. -/
structure SWROutcome (Value : Type) where
  result : Except Unit Value
  fetchCalls : Nat
  awaited : Bool
  state : CacheState Value

/-- Translation of `getStaleWhileRevalidate(key, fetchFn, { ttl, onUpdate })`.
`fetchOutcome` is the settlement of `fetchFn()`.  Fresh entries return
immediately; stale-but-not-expired and expired entries return the cached
data while `revalidateInBackground` runs (its `wrapped.data !== undefined`
guard is vacuous, the data field being always present); on a miss the fetch
is awaited, written through on success, and its rejection is re-thrown
after the dead-in-this-model stale-fallback check of the catch block. -/
def getStaleWhileRevalidate {Value : Type} (key : String) (fetchOutcome : Except Unit Value)
    (ttl : Nat) (now : Nat) (st : CacheState Value) : SWROutcome Value :=
  let wrapped := lookupTiers st key
  match wrapped with
  | some w =>
    let expired := isExpired (some w) now
    let stale := isStale (some w) now
    if !expired && !stale then
      { result := .ok w.data, fetchCalls := 0, awaited := false, state := st }
    else if !expired && stale then
      let (started, st1) := revalidateStart key st
      { result := .ok w.data, fetchCalls := if started then 1 else 0,
        awaited := false, state := st1 }
    else
      let (started, st1) := revalidateStart key st
      { result := .ok w.data, fetchCalls := if started then 1 else 0,
        awaited := false, state := st1 }
  | none =>
    match fetchOutcome with
    | .ok fresh =>
      { result := .ok fresh, fetchCalls := 1, awaited := true,
        state := (set key fresh ttl now st).2 }
    | .error e =>
      match wrapped with
      | some w =>
        { result := .ok w.data, fetchCalls := 1, awaited := true, state := st }
      | none =>
        { result := .error e, fetchCalls := 1, awaited := true, state := st }

/-- Translation of the public `remove(key)`: delete from all three tiers. -/
def remove {Value : Type} (key : String) (st : CacheState Value) : CacheState Value :=
  let st1 := removeLocalStorage st key
  let st2 := { st1 with memoryCache := mapDelete st1.memoryCache (getCacheKey key) }
  if st2.hasCacheAPI then { st2 with cacheAPIStore := mapDelete st2.cacheAPIStore (getCacheKey key) }
  else st2

/-- Translation of the public `clear()`: drop the namespaced localStorage
keys (every stored key carries the `omc:` prefix), empty the memory cache,
delete the Cache API cache. -/
def clear {Value : Type} (st : CacheState Value) : CacheState Value :=
  let st1 := if st.lsAvailable then
      { st with localStore := st.localStore.filter (fun p => !p.1.startsWith "omc:") }
    else st
  let st2 := { st1 with memoryCache := [] }
  if st2.hasCacheAPI then { st2 with cacheAPIStore := [] } else st2

/-- Translation of the public `preload(items)`: a `set` per item (the JS
`item.ttl || DEFAULT_TTL` default is absorbed by `wrapData`). -/
def preload {Value : Type} (items : List (String × Value × Nat)) (now : Nat)
    (st : CacheState Value) : CacheState Value :=
  items.foldl (fun s i => (set i.1 i.2.1 i.2.2 now s).2) st

end StorageService

/-- One cache-layer operation, for stating invariants preserved by every
operation of the public API (plus the background-revalidation
continuation, the only other code mutating the cache). -/
inductive CacheOp (Value : Type) where
  | setOp (key : String) (v : Value) (ttl now : Nat)
  | getOp (key : String) (now : Nat)
  | getAsyncOp (key : String) (now : Nat)
  | getSWROp (key : String) (f : Except Unit Value) (ttl now : Nat)
  | revalidateFinishOp (key : String) (f : Except Unit Value) (ttl now : Nat)
  | removeOp (key : String)
  | clearOp
  | preloadOp (items : List (String × Value × Nat)) (now : Nat)

/-- State transformer of one cache operation (`get` reads without writing,
so its case returns the state unchanged, as in the source). -/
def applyOp {Value : Type} : CacheOp Value → CacheState Value → CacheState Value
  | .setOp key v ttl now, st => (StorageService.set key v ttl now st).2
  | .getOp _ _, st => st
  | .getAsyncOp key now, st => (StorageService.getAsync key now st).2
  | .getSWROp key f ttl now, st => (StorageService.getStaleWhileRevalidate key f ttl now st).state
  | .revalidateFinishOp key f ttl now, st => StorageService.revalidateFinish key f ttl now st
  | .removeOp key, st => StorageService.remove key st
  | .clearOp, st => StorageService.clear st
  | .preloadOp items now, st => StorageService.preload items now st

/-- Trace of `n` consecutive `getStaleWhileRevalidate` calls for one key
within one staleness window (no intervening revalidation completion):
the list of per-call outcomes and the final state. -/
def swrTrace {Value : Type} (key : String) (f : Except Unit Value) (ttl now : Nat) :
    Nat → CacheState Value → List (StorageService.SWROutcome Value) × CacheState Value
  | 0, st => ([], st)
  | n + 1, st =>
    let r := StorageService.getStaleWhileRevalidate key f ttl now st
    let rest := swrTrace key f ttl now n r.state
    (r :: rest.1, rest.2)

/-! ## Association-list (JS `Map`) lemmas -/

open StorageService

/-- Setting a key makes it immediately readable. -/
theorem mapLookup_mapSet_self {Value : Type} (m : List (String × WrappedData Value))
    (k : String) (v : WrappedData Value) : mapLookup (mapSet m k v) k = some v := by
  induction m with
  | nil => simp [mapSet, mapLookup]
  | cons p ps ih =>
    by_cases h : p.1 = k
    · simp [mapSet, h, mapLookup]
    · simp [mapSet, h, mapLookup, ih]

/-- Setting a fresh key appends it, preserving insertion order of the rest. -/
theorem mapSet_of_lookup_none {Value : Type} {m : List (String × WrappedData Value)}
    {k : String} (v : WrappedData Value) (h : mapLookup m k = none) :
    mapSet m k v = m ++ [(k, v)] := by
  induction m with
  | nil => simp [mapSet]
  | cons p ps ih =>
    simp only [mapLookup] at h
    by_cases hp : p.1 = k
    · simp [hp] at h
    · simp only [mapSet, if_neg hp, List.cons_append, List.cons.injEq, true_and]
      exact ih (by simpa [hp] using h)

/-- Overwriting an existing key does not change the map's size. -/
theorem mapSet_length_of_lookup_some {Value : Type} {m : List (String × WrappedData Value)}
    {k : String} {u : WrappedData Value} (v : WrappedData Value)
    (h : mapLookup m k = some u) : (mapSet m k v).length = m.length := by
  induction m with
  | nil => simp [mapLookup] at h
  | cons p ps ih =>
    simp only [mapLookup] at h
    by_cases hp : p.1 = k
    · simp [mapSet, hp]
    · simp only [mapSet, if_neg hp, List.length_cons]
      exact congrArg (· + 1) (ih (by simpa [hp] using h))

/-- Size bound for `mapSet`. -/
theorem mapSet_length_le {Value : Type} (m : List (String × WrappedData Value))
    (k : String) (v : WrappedData Value) : (mapSet m k v).length ≤ m.length + 1 := by
  induction m with
  | nil => simp [mapSet]
  | cons p ps ih =>
    by_cases h : p.1 = k
    · simp [mapSet, h]
    · simp only [mapSet, if_neg h, List.length_cons]
      omega

/-- Deletion can only shrink the map. -/
theorem mapDelete_length_le {Value : Type} (m : List (String × WrappedData Value))
    (k : String) : (mapDelete m k).length ≤ m.length := by
  induction m with
  | nil => simp [mapDelete]
  | cons p ps ih =>
    by_cases h : p.1 = k
    · simp [mapDelete, h]
    · simp only [mapDelete, if_neg h, List.length_cons]; omega

/-- Deleting the head key removes exactly the head entry. -/
theorem mapDelete_cons_self {Value : Type} (p : String × WrappedData Value)
    (ps : List (String × WrappedData Value)) : mapDelete (p :: ps) p.1 = ps := by
  simp [mapDelete]

/-- A key absent from the front of an append is found in its tail. -/
theorem mapLookup_append_self {Value : Type} {t : List (String × WrappedData Value)}
    {k : String} (v : WrappedData Value) (h : mapLookup t k = none) :
    mapLookup (t ++ [(k, v)]) k = some v := by
  induction t with
  | nil => simp [mapLookup]
  | cons p ps ih =>
    simp only [mapLookup] at h
    by_cases hp : p.1 = k
    · simp [hp] at h
    · simp only [List.cons_append, mapLookup, if_neg hp]
      exact ih (by simpa [hp] using h)

/-- After `setMemoryCache` the written key reads back, provided the
incoming tier respects its 100-entry bound (so the possible eviction hits
the old head, never the entry just written). -/
theorem setMemoryCache_lookup {Value : Type} (st : CacheState Value) (key : String)
    (w : WrappedData Value) (hmem : st.memoryCache.length ≤ 100) :
    mapLookup (setMemoryCache st key w).memoryCache (getCacheKey key) = some w := by
  unfold setMemoryCache
  cases hk : mapLookup st.memoryCache (getCacheKey key) with
  | some u =>
    have hlen := mapSet_length_of_lookup_some (m := st.memoryCache) w hk
    rw [if_neg (by omega)]
    exact mapLookup_mapSet_self _ _ _
  | none =>
    have hset := mapSet_of_lookup_none (m := st.memoryCache) w hk
    by_cases hbig : 100 < (mapSet st.memoryCache (getCacheKey key) w).length
    · rw [if_pos hbig]
      have hlen : st.memoryCache.length = 100 := by
        have := congrArg List.length hset
        simp at this
        omega
      cases hm : st.memoryCache with
      | nil => simp [hm] at hlen
      | cons p ps =>
        simp only [hm] at hset
        simp only [hset, List.cons_append]
        rw [mapDelete_cons_self]
        have hk2 : mapLookup ps (getCacheKey key) = none := by
          rw [hm] at hk
          simp only [mapLookup] at hk
          by_cases hp : p.1 = getCacheKey key
          · simp [hp] at hk
          · simpa [hp] using hk
        exact mapLookup_append_self w hk2
    · rw [if_neg hbig]
      exact mapLookup_mapSet_self _ _ _

/-- Non-memory fields are untouched by `setMemoryCache`. -/
theorem setMemoryCache_fields {Value : Type} (st : CacheState Value) (key : String)
    (w : WrappedData Value) :
    (setMemoryCache st key w).localStore = st.localStore ∧
    (setMemoryCache st key w).lsAvailable = st.lsAvailable ∧
    (setMemoryCache st key w).cacheAPIStore = st.cacheAPIStore ∧
    (setMemoryCache st key w).hasCacheAPI = st.hasCacheAPI ∧
    (setMemoryCache st key w).pendingRevalidations = st.pendingRevalidations := by
  unfold setMemoryCache
  by_cases h : 100 < (mapSet st.memoryCache (getCacheKey key) w).length <;> simp [h]

/-- Only the Cache API tier is touched by `setCacheAPI`. -/
theorem setCacheAPI_fields {Value : Type} (st : CacheState Value) (key : String)
    (w : WrappedData Value) :
    (setCacheAPI st key w).localStore = st.localStore ∧
    (setCacheAPI st key w).lsAvailable = st.lsAvailable ∧
    (setCacheAPI st key w).memoryCache = st.memoryCache ∧
    (setCacheAPI st key w).pendingRevalidations = st.pendingRevalidations := by
  unfold setCacheAPI
  by_cases h : st.hasCacheAPI <;> simp [h]

/-- An entry freshly wrapped at a positive timestamp is not yet expired
while the elapsed time stays below its effective ttl. -/
theorem wrapData_not_expired {Value : Type} (v : Value) (ttl t0 t1 : Nat) (h0 : 0 < t0)
    (hel : t1 - t0 < (if ttl = 0 then DEFAULT_TTL else ttl)) :
    isExpired (some (wrapData v ttl t0)) t1 = false := by
  simp only [isExpired, wrapData]
  rw [if_neg (by omega)]
  simp only [decide_eq_false_iff_not]
  omega

/-- Reading back through `get` when the two-tier lookup finds a
non-expired freshly wrapped entry. -/
theorem get_of_lookupTiers {Value : Type} {key : String} {t1 : Nat}
    {st2 : CacheState Value} {w : WrappedData Value}
    (h2 : lookupTiers st2 key = some w) (hexp : isExpired (some w) t1 = false) :
    StorageService.get key t1 st2 = some w.data := by
  unfold StorageService.get
  simp [h2, hexp]

/-- Round-trip through whichever tier accepted the write: `set` followed by
`get` within the effective TTL returns the value.  `0 < t0` reflects that
`Date.now()` is a positive epoch timestamp, and the memory-tier bound is
the invariant every reachable state satisfies. -/
theorem set_get_roundtrip {Value : Type} (key : String) (v : Value) (ttl : Nat)
    (st : CacheState Value) (t0 t1 : Nat) (h0 : 0 < t0) (h01 : t0 ≤ t1)
    (hel : t1 - t0 < (if ttl = 0 then DEFAULT_TTL else ttl))
    (hmem : st.memoryCache.length ≤ 100) :
    StorageService.get key t1 ((StorageService.set key v ttl t0 st).2) = some v := by
  have hexp := wrapData_not_expired v ttl t0 t1 h0 hel
  cases hls : st.lsAvailable with
  | true =>
    have hlook : lookupTiers (StorageService.set key v ttl t0 st).2 key
        = some (wrapData v ttl t0) := by
      unfold StorageService.set StorageService.setLocalStorage
      simp only [hls, if_true]
      cases hca : st.hasCacheAPI <;>
        simp [lookupTiers, getLocalStorage, setCacheAPI, hls, hca, mapLookup_mapSet_self]
    exact get_of_lookupTiers hlook hexp
  | false =>
    have hstep : (StorageService.set key v ttl t0 st).2
        = setMemoryCache st key (wrapData v ttl t0) := by
      unfold StorageService.set StorageService.setLocalStorage
      simp [hls]
    have hlsA := (setMemoryCache_fields st key (wrapData v ttl t0)).2.1
    have hlk := setMemoryCache_lookup st key (wrapData v ttl t0) hmem
    have hlook : lookupTiers (StorageService.set key v ttl t0 st).2 key
        = some (wrapData v ttl t0) := by
      rw [hstep]
      unfold lookupTiers getLocalStorage getMemoryCache
      rw [hlsA, hls]
      simpa using hlk
    exact get_of_lookupTiers hlook hexp

/-- Expired entries are expired in the `isExpired` sense. -/
theorem isExpired_true_of_lt {Value : Type} {w : WrappedData Value} {t : Nat}
    (ht : w.ttl < t - w.timestamp) : isExpired (some w) t = true := by
  unfold isExpired
  by_cases hts : w.timestamp = 0
  · simp [hts]
  · simp [hts, ht]

/-- An entry within its ttl whose timestamp is truthy is not expired. -/
theorem isExpired_false_of_le {Value : Type} {w : WrappedData Value} {t : Nat}
    (hts : w.timestamp ≠ 0) (ht : t - w.timestamp ≤ w.ttl) :
    isExpired (some w) t = false := by
  unfold isExpired
  simp [hts]
  omega

/-- A stale entry in the `isStale` sense. -/
theorem isStale_true_of_lt {Value : Type} {w : WrappedData Value} {t : Nat}
    (ht : 4 * w.ttl < 5 * (t - w.timestamp)) : isStale (some w) t = true := by
  unfold isStale
  by_cases hts : w.timestamp = 0
  · simp [hts]
  · simp [hts, ht]

/-- Reading any key whose two-tier lookup yields an over-age entry gives
null, at that time and all later ones (used for both C4 and C8). -/
theorem get_expired_none {Value : Type} {key : String} {st : CacheState Value}
    {w : WrappedData Value} (hlook : lookupTiers st key = some w) {t : Nat}
    (ht : w.ttl < t - w.timestamp) : StorageService.get key t st = none := by
  unfold StorageService.get
  simp [hlook, isExpired_true_of_lt ht]

/-! ## Memory-tier bound lemmas (C7) -/

/-- The `setMemoryCache` eviction keeps the tier at or below 100 entries. -/
theorem setMemoryCache_length {Value : Type} (st : CacheState Value) (key : String)
    (w : WrappedData Value) (hmem : st.memoryCache.length ≤ 100) :
    (setMemoryCache st key w).memoryCache.length ≤ 100 := by
  have hle := mapSet_length_le st.memoryCache (getCacheKey key) w
  simp only [setMemoryCache]
  cases hm : mapSet st.memoryCache (getCacheKey key) w with
  | nil => simp
  | cons p ps =>
    rw [hm] at hle
    simp only [List.length_cons] at hle
    by_cases hbig : 100 < (p :: ps).length
    · rw [if_pos hbig]
      simp [mapDelete_cons_self]
      omega
    · rw [if_neg hbig]
      simp only [List.length_cons] at hbig ⊢
      omega

/-- The public `set` keeps the memory tier at or below 100 entries. -/
theorem set_memoryCache_length {Value : Type} (key : String) (v : Value) (ttl now : Nat)
    (st : CacheState Value) (hmem : st.memoryCache.length ≤ 100) :
    ((StorageService.set key v ttl now st).2).memoryCache.length ≤ 100 := by
  cases hls : st.lsAvailable with
  | true =>
    unfold StorageService.set StorageService.setLocalStorage
    simp only [hls, if_true]
    rw [(setCacheAPI_fields _ _ _).2.2.1]
    exact hmem
  | false =>
    unfold StorageService.set StorageService.setLocalStorage
    simp only [hls, Bool.false_eq_true, if_false]
    exact setMemoryCache_length st key _ hmem

/-- `preload` keeps the memory tier at or below 100 entries. -/
theorem preload_memoryCache_length {Value : Type} (items : List (String × Value × Nat))
    (now : Nat) : ∀ st : CacheState Value, st.memoryCache.length ≤ 100 →
    (StorageService.preload items now st).memoryCache.length ≤ 100 := by
  induction items with
  | nil => intro st hmem; simpa [StorageService.preload] using hmem
  | cons i is ih =>
    intro st hmem
    simp only [StorageService.preload, List.foldl_cons]
    exact ih _ (set_memoryCache_length i.1 i.2.1 i.2.2 now st hmem)

/-- The second component of `revalidateStart` differs from the incoming
state at most in the pending-guard set. -/
theorem revalidateStart_snd_fields {Value : Type} (key : String) (st : CacheState Value) :
    ((revalidateStart key st).2).localStore = st.localStore ∧
    ((revalidateStart key st).2).lsAvailable = st.lsAvailable ∧
    ((revalidateStart key st).2).memoryCache = st.memoryCache ∧
    ((revalidateStart key st).2).cacheAPIStore = st.cacheAPIStore ∧
    ((revalidateStart key st).2).hasCacheAPI = st.hasCacheAPI := by
  unfold revalidateStart
  by_cases hp : key ∈ st.pendingRevalidations <;> simp [hp]

/-- The state a `getStaleWhileRevalidate` call settles with is the incoming
state, the guard-updated state, or the state of a successful write-through
`set`. -/
theorem swr_state_cases {Value : Type} (key : String) (f : Except Unit Value)
    (ttl now : Nat) (st : CacheState Value) :
    (StorageService.getStaleWhileRevalidate key f ttl now st).state = st ∨
    (StorageService.getStaleWhileRevalidate key f ttl now st).state
      = (revalidateStart key st).2 ∨
    (∃ v, f = Except.ok v ∧
      (StorageService.getStaleWhileRevalidate key f ttl now st).state
        = (StorageService.set key v ttl now st).2) := by
  unfold StorageService.getStaleWhileRevalidate
  cases hlk : lookupTiers st key with
  | some w =>
    by_cases h1 : (!isExpired (some w) now && !isStale (some w) now) = true
    · simp [h1]
    · by_cases h2 : (!isExpired (some w) now && isStale (some w) now) = true
      · simp [h1, h2]
      · simp [h1, h2]
  | none =>
    cases f with
    | ok v => simp
    | error e => simp

/-- Every cache operation keeps the memory tier at or below 100 entries. -/
theorem applyOp_memoryCache_length {Value : Type} (op : CacheOp Value)
    (st : CacheState Value) (hmem : st.memoryCache.length ≤ 100) :
    (applyOp op st).memoryCache.length ≤ 100 := by
  cases op with
  | setOp key v ttl now =>
    simp only [applyOp]
    exact set_memoryCache_length key v ttl now st hmem
  | getOp key now =>
    simp only [applyOp]
    exact hmem
  | getAsyncOp key now =>
    simp only [applyOp]
    unfold StorageService.getAsync
    cases hg : StorageService.get key now st with
    | some v => simp only [hg]; exact hmem
    | none =>
      simp only [hg]
      cases hc : getCacheAPI st key with
      | none => exact hmem
      | some w =>
        by_cases he : isExpired (some w) now = true
        · simp only [he, if_true]
          exact hmem
        · simp only [he, if_false]
          unfold StorageService.setLocalStorage
          by_cases hls : st.lsAvailable = true <;> simp [hls] <;> exact hmem
  | getSWROp key f ttl now =>
    simp only [applyOp]
    rcases swr_state_cases key f ttl now st with h | h | ⟨v, _, h⟩
    · rw [h]; exact hmem
    · rw [h, (revalidateStart_snd_fields key st).2.2.1]; exact hmem
    · rw [h]; exact set_memoryCache_length key v ttl now st hmem
  | revalidateFinishOp key f ttl now =>
    simp only [applyOp]
    unfold StorageService.revalidateFinish
    cases f with
    | ok v =>
      simp only []
      exact set_memoryCache_length key v ttl now st hmem
    | error e => exact hmem
  | removeOp key =>
    simp only [applyOp]
    unfold StorageService.remove StorageService.removeLocalStorage
    have hdel := mapDelete_length_le st.memoryCache (getCacheKey key)
    by_cases hls : st.lsAvailable = true <;>
      by_cases hca : st.hasCacheAPI = true <;>
        simp_all <;> omega
  | clearOp =>
    simp only [applyOp]
    unfold StorageService.clear
    by_cases hls : st.lsAvailable = true <;>
      by_cases hca : st.hasCacheAPI = true <;> simp_all
  | preloadOp items now =>
    simp only [applyOp]
    exact preload_memoryCache_length items now st hmem

/-- When a fresh key is written into a memory tier already holding exactly
100 entries, precisely the earliest-inserted entry (the list head) is
evicted and the tier again holds exactly 100 entries. -/
theorem setMemoryCache_evicts_head {Value : Type} (st : CacheState Value) (key : String)
    (w : WrappedData Value)
    (hfresh : mapLookup st.memoryCache (getCacheKey key) = none)
    (hfull : st.memoryCache.length = 100) :
    (setMemoryCache st key w).memoryCache
      = st.memoryCache.tail ++ [(getCacheKey key, w)] ∧
    (setMemoryCache st key w).memoryCache.length = 100 := by
  have hset := mapSet_of_lookup_none (m := st.memoryCache) w hfresh
  simp only [setMemoryCache]
  cases hm : st.memoryCache with
  | nil => rw [hm] at hfull; simp at hfull
  | cons p ps =>
    rw [hm] at hset hfull
    rw [hset]
    have hps : ps.length = 99 := by
      simp at hfull
      omega
    rw [if_pos (by simp; omega)]
    constructor
    · simp [mapDelete_cons_self]
    · simp [mapDelete_cons_self, hps]

/-! ## Concrete states for witnesses -/

/-- Empty cache state over `Nat` values with both storage backends
available. -/
def emptyState : CacheState Nat :=
  { localStore := [], lsAvailable := true, memoryCache := [], cacheAPIStore := [],
    hasCacheAPI := true, pendingRevalidations := [] }

/-- Cache state with localStorage unavailable. -/
def noLsState : CacheState Nat :=
  { localStore := [], lsAvailable := false, memoryCache := [], cacheAPIStore := [],
    hasCacheAPI := false, pendingRevalidations := [] }

/-- Cache state holding one long-expired entry for the key `stats`. -/
def staleState : CacheState Nat :=
  { localStore := [("omc:stats", ⟨42, 10, 5⟩)], lsAvailable := true, memoryCache := [],
    cacheAPIStore := [], hasCacheAPI := false, pendingRevalidations := [] }

/-- Cache state whose memory tier holds exactly 100 entries, localStorage
unavailable. -/
def fullState : CacheState Nat :=
  { localStore := [], lsAvailable := false,
    memoryCache := (List.range 100).map (fun i => ("omc:k" ++ toString i, ⟨i, 1, 1⟩)),
    cacheAPIStore := [], hasCacheAPI := false, pendingRevalidations := [] }

/-! ## Claim theorems: cache round-trip, expiry, set result -/

/-- C3: for every key, JSON-serializable value, and ttl > 0, `set(key,
value, ttl)` immediately followed by `get(key)` with elapsed time strictly
below ttl returns the value, through the persistent or the in-memory tier.
The hypotheses `0 < t0` (epoch clocks are positive) and the memory-tier
size bound (an invariant of every reachable state) delimit the model. -/
theorem claim_C3_set_get_roundtrip {Value : Type} (key : String) (v : Value) (ttl : Nat)
    (st : CacheState Value) (t0 t1 : Nat) (httl : 0 < ttl) (h0 : 0 < t0) (h01 : t0 ≤ t1)
    (hel : t1 - t0 < ttl) (hmem : st.memoryCache.length ≤ 100) :
    StorageService.get key t1 ((StorageService.set key v ttl t0 st).2) = some v :=
  set_get_roundtrip key v ttl st t0 t1 h0 h01 (by rw [if_neg (by omega)]; exact hel) hmem

/-- Witness for C3 at a concrete input: a value written with ttl 5000 at
time 10 and read back at time 20, through the localStorage tier. -/
theorem claim_C3_witness :
    0 < 5000 ∧ 0 < 10 ∧ 10 ≤ 20 ∧ 20 - 10 < 5000 ∧ emptyState.memoryCache.length ≤ 100 ∧
    StorageService.get "stats" 20 ((StorageService.set "stats" 7 5000 10 emptyState).2)
      = some 7 :=
  ⟨by decide, by decide, by decide, by decide, by decide,
   claim_C3_set_get_roundtrip "stats" 7 5000 emptyState 10 20 (by decide) (by decide)
     (by decide) (by decide) (by decide)⟩

/-- C4: once the elapsed time since an entry's timestamp exceeds its ttl,
`get(key)` returns null, and expiry is monotonic: without a fresh `set` the
entry never again yields a non-null `get` at any later time. -/
theorem claim_C4_expiry_monotonic {Value : Type} (key : String) (st : CacheState Value)
    (w : WrappedData Value) (now : Nat) (hlook : lookupTiers st key = some w)
    (hexp : w.ttl < now - w.timestamp) :
    StorageService.get key now st = none ∧
    ∀ later : Nat, now ≤ later → StorageService.get key later st = none :=
  ⟨get_expired_none hlook hexp, fun later hl => get_expired_none hlook (by omega)⟩

/-- Witness for C4 at a concrete input: an entry with ttl 5 written at
time 10 read at time 100 and beyond. -/
theorem claim_C4_witness :
    lookupTiers staleState "stats" = some ⟨42, 10, 5⟩ ∧
    (5 : Nat) < 100 - 10 ∧
    (StorageService.get "stats" 100 staleState = none ∧
      ∀ later : Nat, 100 ≤ later → StorageService.get "stats" later staleState = none) :=
  ⟨by decide, by decide,
   claim_C4_expiry_monotonic "stats" staleState ⟨42, 10, 5⟩ 100 (by decide) (by decide)⟩

/-- C9: `set` always resolves to `true`, for every key, value and ttl, even
when the persistent-tier write fails; in that case the write silently falls
back to the in-memory tier while still reporting success, so the returned
boolean carries no information about which tier accepted the write. -/
theorem claim_C9_set_always_true {Value : Type} (key : String) (v : Value) (ttl now : Nat)
    (st : CacheState Value) :
    (StorageService.set key v ttl now st).1 = true ∧
    (st.lsAvailable = false →
      (StorageService.set key v ttl now st).2 = setMemoryCache st key (wrapData v ttl now)) := by
  cases hls : st.lsAvailable with
  | true =>
    refine ⟨?_, ?_⟩
    · unfold StorageService.set StorageService.setLocalStorage
      simp [hls]
    · intro h
      exact absurd h (by decide)
  | false =>
    refine ⟨?_, ?_⟩
    · unfold StorageService.set StorageService.setLocalStorage
      simp [hls]
    · intro _
      unfold StorageService.set StorageService.setLocalStorage
      simp [hls]

/-- Witness for C9 at a concrete input with localStorage unavailable: the
call still reports success while writing to the memory tier. -/
theorem claim_C9_witness :
    (StorageService.set "k" 1 5 3 noLsState).1 = true ∧
    (StorageService.set "k" 1 5 3 noLsState).2 = setMemoryCache noLsState "k" (wrapData 1 5 3) :=
  ⟨(claim_C9_set_always_true "k" 1 5 3 noLsState).1,
   (claim_C9_set_always_true "k" 1 5 3 noLsState).2 rfl⟩

/-- C10: a ttl argument of 0 does not create an immediately-expired entry:
`wrapData` replaces the falsy ttl by the default of 300000 ms, so a `get`
immediately after `set(key, value, 0)` still returns the value. -/
theorem claim_C10_zero_ttl_default {Value : Type} (key : String) (v : Value)
    (st : CacheState Value) (now : Nat) (h0 : 0 < now)
    (hmem : st.memoryCache.length ≤ 100) :
    (wrapData v 0 now).ttl = DEFAULT_TTL ∧ DEFAULT_TTL = 300000 ∧
    StorageService.get key now ((StorageService.set key v 0 now st).2) = some v :=
  ⟨rfl, by decide,
   set_get_roundtrip key v 0 st now now h0 le_rfl
     (by rw [if_pos rfl]; unfold DEFAULT_TTL; omega) hmem⟩

/-- Witness for C10 at a concrete input: ttl 0 at time 7 round-trips. -/
theorem claim_C10_witness :
    0 < 7 ∧ emptyState.memoryCache.length ≤ 100 ∧
    ((wrapData 9 0 7).ttl = DEFAULT_TTL ∧ DEFAULT_TTL = 300000 ∧
      StorageService.get "p" 7 ((StorageService.set "p" 9 0 7 emptyState).2) = some 9) :=
  ⟨by decide, by decide, claim_C10_zero_ttl_default "p" 9 emptyState 7 (by decide) (by decide)⟩

/-- C7: the in-memory tier never exceeds 100 entries — every cache
operation preserves the bound — and a `setMemoryCache` of a fresh key into
a tier holding exactly 100 entries evicts exactly one entry, namely the
earliest-inserted one (FIFO by insertion order: the head of the
insertion-ordered list), leaving exactly 100 entries. -/
theorem claim_C7_memory_bound {Value : Type} (st : CacheState Value)
    (hmem : st.memoryCache.length ≤ 100) :
    (∀ op : CacheOp Value, (applyOp op st).memoryCache.length ≤ 100) ∧
    (∀ (key : String) (w : WrappedData Value),
      mapLookup st.memoryCache (getCacheKey key) = none →
      st.memoryCache.length = 100 →
      (setMemoryCache st key w).memoryCache
        = st.memoryCache.tail ++ [(getCacheKey key, w)] ∧
      (setMemoryCache st key w).memoryCache.length = 100) :=
  ⟨fun op => applyOp_memoryCache_length op st hmem,
   fun key w hfresh hfull => setMemoryCache_evicts_head st key w hfresh hfull⟩

/-- Witness for C7 at a concrete input: a 100-entry memory tier accepting a
fresh key evicts exactly its earliest-inserted entry. -/
theorem claim_C7_witness :
    fullState.memoryCache.length ≤ 100 ∧
    (applyOp (CacheOp.setOp "fresh" 7 5 3) fullState).memoryCache.length ≤ 100 ∧
    ((setMemoryCache fullState "fresh" ⟨7, 1, 1⟩).memoryCache
        = fullState.memoryCache.tail ++ [(getCacheKey "fresh", ⟨7, 1, 1⟩)] ∧
      (setMemoryCache fullState "fresh" ⟨7, 1, 1⟩).memoryCache.length = 100) :=
  ⟨by decide,
   (claim_C7_memory_bound fullState (by decide)).1 (CacheOp.setOp "fresh" 7 5 3),
   (claim_C7_memory_bound fullState (by decide)).2 "fresh" ⟨7, 1, 1⟩ (by decide) (by decide)⟩

/-! ## Stale-while-revalidate lemmas and claims C1, C2, C8 -/

/-- A `getStaleWhileRevalidate` call that finds a non-fresh entry (stale or
expired) returns the cached data without awaiting the fetch, starting one
background fetch exactly when the pending guard does not already hold the
key. -/
theorem swr_revalidate_step {Value : Type} {key : String} (f : Except Unit Value)
    (ttl : Nat) {now : Nat} {st : CacheState Value} {w : WrappedData Value}
    (hlk : lookupTiers st key = some w)
    (hnf : (!isExpired (some w) now && !isStale (some w) now) = false) :
    StorageService.getStaleWhileRevalidate key f ttl now st =
      { result := Except.ok w.data,
        fetchCalls := if key ∈ st.pendingRevalidations then 0 else 1,
        awaited := false,
        state := if key ∈ st.pendingRevalidations then st
                 else { st with pendingRevalidations := st.pendingRevalidations ++ [key] } } := by
  unfold StorageService.getStaleWhileRevalidate revalidateStart
  simp only [hlk]
  by_cases h2 : (!isExpired (some w) now && isStale (some w) now) = true <;>
    by_cases hp : key ∈ st.pendingRevalidations <;>
      simp [hnf, h2, hp]

/-- C8: reading an expired entry does not delete it: `get` returns null
while performing no state change, the entry stays in place in the tiers, and
a subsequent `getStaleWhileRevalidate` still returns the expired data without
awaiting the fetch, starting a background revalidation when none is
pending. -/
theorem claim_C8_expired_read_frame {Value : Type} (key : String) (st : CacheState Value)
    (w : WrappedData Value) (f : Except Unit Value) (ttl now : Nat)
    (hlook : lookupTiers st key = some w) (hexp : w.ttl < now - w.timestamp) :
    applyOp (CacheOp.getOp key now) st = st ∧
    StorageService.get key now st = none ∧
    lookupTiers (applyOp (CacheOp.getOp key now) st) key = some w ∧
    (StorageService.getStaleWhileRevalidate key f ttl now st).result = Except.ok w.data ∧
    (StorageService.getStaleWhileRevalidate key f ttl now st).awaited = false ∧
    (key ∉ st.pendingRevalidations →
      (StorageService.getStaleWhileRevalidate key f ttl now st).fetchCalls = 1) := by
  have hE : isExpired (some w) now = true := isExpired_true_of_lt hexp
  have hnf : (!isExpired (some w) now && !isStale (some w) now) = false := by simp [hE]
  have hstep := swr_revalidate_step f ttl hlook hnf
  refine ⟨rfl, get_expired_none hlook hexp, hlook, ?_, ?_, ?_⟩
  · rw [hstep]
  · rw [hstep]
  · intro hp
    rw [hstep]
    simp [hp]

/-- Witness for C8 at a concrete input: the expired `stats` entry is
read as null, survives, and feeds a background-revalidating
`getStaleWhileRevalidate`. -/
theorem claim_C8_witness :
    StorageService.get "stats" 100 staleState = none ∧
    (StorageService.getStaleWhileRevalidate "stats" (Except.ok 50) 5 100 staleState).result
      = Except.ok 42 ∧
    (StorageService.getStaleWhileRevalidate "stats" (Except.ok 50) 5 100 staleState).awaited
      = false ∧
    (StorageService.getStaleWhileRevalidate "stats" (Except.ok 50) 5 100 staleState).fetchCalls
      = 1 := by
  have h := claim_C8_expired_read_frame "stats" staleState ⟨42, 10, 5⟩ (Except.ok 50) 5 100
    (by decide) (by decide)
  exact ⟨h.2.1, h.2.2.2.1, h.2.2.2.2.1, h.2.2.2.2.2 (by decide)⟩

/-- C2: `getStaleWhileRevalidate` rejects exactly when the fetch rejects
and no cached entry exists; on a cache miss the fetch is awaited, its value
written through and returned; with any cached entry present the call
resolves with the cached data whatever the fetch does. -/
theorem claim_C2_reject_iff {Value : Type} (key : String) (f : Except Unit Value)
    (ttl now : Nat) (st : CacheState Value) :
    ((StorageService.getStaleWhileRevalidate key f ttl now st).result = Except.error () ↔
      lookupTiers st key = none ∧ f = Except.error ()) ∧
    (lookupTiers st key = none →
      (StorageService.getStaleWhileRevalidate key f ttl now st).awaited = true ∧
      ∀ v : Value, f = Except.ok v →
        (StorageService.getStaleWhileRevalidate key f ttl now st).result = Except.ok v ∧
        (StorageService.getStaleWhileRevalidate key f ttl now st).state
          = (StorageService.set key v ttl now st).2) ∧
    (∀ w : WrappedData Value, lookupTiers st key = some w →
      (StorageService.getStaleWhileRevalidate key f ttl now st).result
        = Except.ok w.data) := by
  cases hlk : lookupTiers st key with
  | none =>
    cases f with
    | ok v =>
      have hr : StorageService.getStaleWhileRevalidate key (Except.ok v) ttl now st
          = { result := Except.ok v, fetchCalls := 1, awaited := true,
              state := (StorageService.set key v ttl now st).2 } := by
        unfold StorageService.getStaleWhileRevalidate
        simp [hlk]
      refine ⟨?_, ?_, ?_⟩
      · rw [hr]
        simp
      · intro _
        refine ⟨by rw [hr], ?_⟩
        intro v2 hv2
        obtain rfl : v = v2 := by injection hv2
        exact ⟨by rw [hr], by rw [hr]⟩
      · intro w hw
        cases hw
    | error e =>
      cases e
      have hr : StorageService.getStaleWhileRevalidate key (Except.error ()) ttl now st
          = { result := Except.error (), fetchCalls := 1, awaited := true, state := st } := by
        unfold StorageService.getStaleWhileRevalidate
        simp [hlk]
      refine ⟨?_, ?_, ?_⟩
      · rw [hr]
        simp
      · intro _
        refine ⟨by rw [hr], ?_⟩
        intro v2 hv2
        cases hv2
      · intro w hw
        cases hw
  | some w =>
    have hres : (StorageService.getStaleWhileRevalidate key f ttl now st).result
        = Except.ok w.data := by
      cases h1 : (!isExpired (some w) now && !isStale (some w) now) with
      | true =>
        unfold StorageService.getStaleWhileRevalidate
        simp [hlk, h1]
      | false =>
        rw [swr_revalidate_step f ttl hlk h1]
    refine ⟨?_, ?_, ?_⟩
    · rw [hres]
      simp
    · intro h
      cases h
    · intro w2 hw2
      obtain rfl : w = w2 := by injection hw2
      exact hres

/-- Witness for C2 at a concrete input: a cache miss awaits the fetch,
caches and returns its value. -/
theorem claim_C2_witness :
    (StorageService.getStaleWhileRevalidate "k" (Except.ok 5) 60 1 emptyState).awaited
      = true ∧
    (StorageService.getStaleWhileRevalidate "k" (Except.ok 5) 60 1 emptyState).result
      = Except.ok 5 ∧
    (StorageService.getStaleWhileRevalidate "k" (Except.ok 5) 60 1 emptyState).state
      = (StorageService.set "k" 5 60 1 emptyState).2 := by
  have h := (claim_C2_reject_iff "k" (Except.ok 5) 60 1 emptyState).2.1 (by decide)
  exact ⟨h.1, (h.2 5 rfl).1, (h.2 5 rfl).2⟩

/-- Repeated stale-window calls while the guard already holds the key: the
cached value is returned every time, no fetch is started, and the state is
unchanged. -/
theorem swrTrace_of_pending {Value : Type} {key : String} (f : Except Unit Value)
    (ttl : Nat) {now : Nat} {w : WrappedData Value} (n : Nat) :
    ∀ st : CacheState Value, lookupTiers st key = some w →
    (!isExpired (some w) now && !isStale (some w) now) = false →
    key ∈ st.pendingRevalidations →
    (∀ r ∈ (swrTrace key f ttl now n st).1,
      r.result = Except.ok w.data ∧ r.awaited = false ∧ r.fetchCalls = 0) ∧
    (swrTrace key f ttl now n st).2 = st := by
  induction n with
  | zero =>
    intro st _ _ _
    exact ⟨by simp [swrTrace], rfl⟩
  | succ n ih =>
    intro st hlk hnf hp
    have hr : StorageService.getStaleWhileRevalidate key f ttl now st
        = { result := Except.ok w.data, fetchCalls := 0, awaited := false, state := st } := by
      rw [swr_revalidate_step f ttl hlk hnf]
      simp [hp]
    obtain ⟨hall, hfin⟩ := ih st hlk hnf hp
    simp only [swrTrace, hr]
    refine ⟨?_, hfin⟩
    intro r hr2
    rcases List.mem_cons.mp hr2 with rfl | hr3
    · exact ⟨rfl, rfl, rfl⟩
    · exact hall r hr3

/-- C1: within the stale-but-not-expired window (`0.8·T < t ≤ T`, truthy
timestamp), any number of `getStaleWhileRevalidate` calls for the same key
each return the cached value without awaiting the fetch, at most one
background fetch is started across the whole sequence, and after the first
call the pending-revalidation guard holds the key. -/
theorem claim_C1_swr_stale_coalescing {Value : Type} (key : String) (f : Except Unit Value)
    (ttl now : Nat) (st : CacheState Value) (w : WrappedData Value) (n : Nat)
    (hlk : lookupTiers st key = some w) (hts : w.timestamp ≠ 0)
    (hst : 4 * w.ttl < 5 * (now - w.timestamp)) (hne : now - w.timestamp ≤ w.ttl) :
    (∀ r ∈ (swrTrace key f ttl now n st).1,
      r.result = Except.ok w.data ∧ r.awaited = false) ∧
    ((swrTrace key f ttl now n st).1.map (fun r => r.fetchCalls)).sum ≤ 1 ∧
    (0 < n → key ∈ ((swrTrace key f ttl now n st).2).pendingRevalidations) := by
  have hE : isExpired (some w) now = false := isExpired_false_of_le hts hne
  have hS : isStale (some w) now = true := isStale_true_of_lt hst
  have hnf : (!isExpired (some w) now && !isStale (some w) now) = false := by
    simp [hE, hS]
  by_cases hp : key ∈ st.pendingRevalidations
  · obtain ⟨hall, hfin⟩ := swrTrace_of_pending f ttl n st hlk hnf hp
    refine ⟨fun r hr => ⟨(hall r hr).1, (hall r hr).2.1⟩, ?_, fun _ => by rw [hfin]; exact hp⟩
    have hzero : ∀ x ∈ (swrTrace key f ttl now n st).1.map (fun r => r.fetchCalls), x = 0 := by
      intro x hx
      rcases List.mem_map.mp hx with ⟨r, hrr, rfl⟩
      exact (hall r hrr).2.2
    rw [List.sum_eq_zero hzero]
    omega
  · cases n with
    | zero =>
      exact ⟨by simp [swrTrace], by simp [swrTrace], fun h => absurd h (by omega)⟩
    | succ n =>
      have hr : StorageService.getStaleWhileRevalidate key f ttl now st
          = { result := Except.ok w.data, fetchCalls := 1, awaited := false,
              state := { st with
                pendingRevalidations := st.pendingRevalidations ++ [key] } } := by
        rw [swr_revalidate_step f ttl hlk hnf]
        simp [hp]
      have hlk1 : lookupTiers
          { st with pendingRevalidations := st.pendingRevalidations ++ [key] } key
          = some w := hlk
      have hp1 : key ∈
          ({ st with pendingRevalidations := st.pendingRevalidations ++ [key] } :
            CacheState Value).pendingRevalidations := by
        simp
      obtain ⟨hall, hfin⟩ := swrTrace_of_pending f ttl n _ hlk1 hnf hp1
      simp only [swrTrace, hr]
      refine ⟨?_, ?_, ?_⟩
      · intro r hr2
        rcases List.mem_cons.mp hr2 with rfl | hr3
        · exact ⟨rfl, rfl⟩
        · exact ⟨(hall r hr3).1, (hall r hr3).2.1⟩
      · have hzero : ∀ x ∈ ((swrTrace key f ttl now n
            { st with pendingRevalidations := st.pendingRevalidations ++ [key] }).1.map
              (fun r => r.fetchCalls)), x = 0 := by
          intro x hx
          rcases List.mem_map.mp hx with ⟨r, hrr, rfl⟩
          exact (hall r hrr).2.2
        simp only [List.map_cons, List.sum_cons]
        rw [List.sum_eq_zero hzero]
        omega
      · intro _
        rw [hfin]
        exact hp1

/-- Witness for C1 at a concrete input: three consecutive calls at elapsed
time 5 of a ttl-5 entry (stale, not expired) return the cached 42, start
one fetch in total, and leave the guard holding the key. -/
theorem claim_C1_witness :
    lookupTiers staleState "stats" = some ⟨42, 10, 5⟩ ∧ (10 : Nat) ≠ 0 ∧
    4 * 5 < 5 * (15 - 10) ∧ 15 - 10 ≤ 5 ∧
    ((∀ r ∈ (swrTrace "stats" (Except.ok 99) 5 15 3 staleState).1,
        r.result = Except.ok 42 ∧ r.awaited = false) ∧
      ((swrTrace "stats" (Except.ok 99) 5 15 3 staleState).1.map
        (fun r => r.fetchCalls)).sum ≤ 1 ∧
      (0 < 3 → "stats" ∈
        ((swrTrace "stats" (Except.ok 99) 5 15 3 staleState).2).pendingRevalidations)) :=
  ⟨by decide, by decide, by decide, by decide,
   claim_C1_swr_stale_coalescing "stats" (Except.ok 99) 5 15 staleState ⟨42, 10, 5⟩ 3
     (by decide) (by decide) (by decide) (by decide)⟩

/-! ## Search-scorer lemmas and claims C5, C6 -/

/-- A prefix occurrence is in particular a substring occurrence. -/
theorem listIncludes_of_isPrefixOf {p t : List Char} (h : p.isPrefixOf t = true) :
    listIncludes t p = true := by
  cases t with
  | nil =>
    have h1 : p = [] := List.prefix_nil.mp (List.isPrefixOf_iff_prefix.mp h)
    simp [listIncludes, h1]
  | cons c ts => simp [listIncludes, h]

/-- The substring scan agrees with the infix relation. -/
theorem listIncludes_iff_isInfix (t p : List Char) : listIncludes t p = true ↔ p <:+: t := by
  induction t with
  | nil =>
    simp [listIncludes, List.isEmpty_iff, List.infix_nil]
  | cons c ts ih =>
    simp only [listIncludes, Bool.or_eq_true, List.isPrefixOf_iff_prefix, ih,
      List.infix_cons_iff]

/-- A literal word-at-boundary match entails a case-insensitive substring
occurrence. -/
theorem listIncludes_of_literalBoundaryTest {text w : List Char}
    (h : literalBoundaryTest text w = true) : listIncludes (lowerList text) w = true := by
  rw [listIncludes_iff_isInfix]
  unfold literalBoundaryTest at h
  rcases List.any_eq_true.mp h with ⟨i, _, hb⟩
  simp only [Bool.and_eq_true] at hb
  have hm : literalMatchesAt text w i = true := hb.2
  unfold literalMatchesAt at hm
  exact List.infix_iff_prefix_suffix.mpr
    ⟨_, List.isPrefixOf_iff_prefix.mp hm, List.drop_suffix i (lowerList text)⟩

/-- On a metacharacter-free word every pattern atom is a literal, so the
atom scan is the case-insensitive prefix test. -/
theorem atomsMatch_eq_isPrefixOf {w : List Char}
    (hmf : ∀ c ∈ w, isRegexMeta c = false) :
    ∀ l : List Char, atomsMatch w l = w.isPrefixOf (lowerList l) := by
  induction w with
  | nil => intro l; cases l <;> rfl
  | cons p ps ih =>
    intro l
    cases l with
    | nil => rfl
    | cons t ts =>
      have hp : isRegexMeta p = false := hmf p (by simp)
      have hdot : ¬ p = '.' := by
        intro h
        rw [h] at hp
        simp [isRegexMeta] at hp
      simp only [atomsMatch, atomMatches, if_neg hdot, lowerList, List.map_cons,
        List.isPrefixOf]
      rw [show (List.map Char.toLower ts) = lowerList ts from rfl,
        ← ih (fun c hc => hmf c (by simp [hc])) ts]
      congr 1
      by_cases hh : Char.toLower t = p
      · simp [hh]
      · have hh2 : ¬ p = Char.toLower t := fun h2 => hh h2.symm
        simp [hh, hh2]

/-- On metacharacter-free words the regex boundary test coincides with the
literal one. -/
theorem wordBoundaryTest_eq_literal {w : List Char}
    (hmf : ∀ c ∈ w, isRegexMeta c = false) (text : List Char) :
    wordBoundaryTest text w = literalBoundaryTest text w := by
  unfold wordBoundaryTest literalBoundaryTest
  have hpt : ∀ i : Nat, (boundaryAt text i && atomsMatch w (text.drop i))
      = (boundaryAt text i && literalMatchesAt text w i) := by
    intro i
    rw [atomsMatch_eq_isPrefixOf hmf (text.drop i)]
    unfold literalMatchesAt lowerList
    rw [List.map_drop]
  simp only [hpt]

/-- The two-pointer `fuzzyMatch` scan decides exactly the ordered
subsequence relation. -/
theorem fuzzyMatch_iff_sublist (t p : List Char) :
    fuzzyMatch t p = true ↔ List.Sublist p t := by
  induction t generalizing p with
  | nil =>
    cases p with
    | nil => simp [fuzzyMatch]
    | cons b ps => simp [fuzzyMatch]
  | cons a ts ih =>
    cases p with
    | nil => simp [fuzzyMatch, List.nil_sublist]
    | cons b ps =>
      by_cases hab : a = b
      · subst hab
        simp [fuzzyMatch, ih, List.cons_sublist_cons]
      · simp only [fuzzyMatch, if_neg hab]
        rw [ih]
        constructor
        · intro h
          exact h.cons a
        · intro h
          rcases List.sublist_cons_iff.mp h with h2 | ⟨r, hr, _⟩
          · exact h2
          · injection hr with h1
            exact absurd h1.symm hab

/-- The per-word score accumulation of `fuzzySearch` as an explicit sum of
per-word terms, keeping the source's nesting of the boundary bonus inside
the substring branch. -/
theorem wordFold_eq_sum_nested (orig : List Char) (qws : List (List Char)) :
    ∀ s : Int, qws.foldl (fun acc word =>
        if listIncludes (lowerList orig) word then
          (let acc := acc + 3
           if wordBoundaryTest orig word then acc + 2 else acc)
        else acc) s
      = s + (qws.map (fun w =>
          if listIncludes (lowerList orig) w then
            (3 : Int) + (if wordBoundaryTest orig w then 2 else 0)
          else 0)).sum := by
  induction qws with
  | nil => intro s; simp
  | cons x xs ih =>
    intro s
    simp only [List.foldl_cons, List.map_cons, List.sum_cons]
    rw [ih]
    by_cases h1 : listIncludes (lowerList orig) x
    · by_cases h2 : wordBoundaryTest orig x <;> simp [h1, h2] <;> ring
    · simp [h1]

/-- The nested score accumulation of `fuzzySearch` computes, entry by
entry, exactly the flat bonus sum stated by the specification — provided
every query word is free of regex metacharacters, so that the interpolated
`\b`-regex reads the word literally. -/
theorem entryScore_eq_claimScore (q : List Char) (item : IndexEntry)
    (hmf : ∀ w ∈ splitWs (lowerList q), ∀ c ∈ w, isRegexMeta c = false) :
    entryScore (lowerList q) (splitWs (lowerList q)) item = claimScore q item := by
  unfold entryScore claimScore
  simp only []
  rw [wordFold_eq_sum_nested item.text (splitWs (lowerList q))]
  have hmap : (splitWs (lowerList q)).map (fun w =>
        if listIncludes (lowerList item.text) w then
          (3 : Int) + (if wordBoundaryTest item.text w then 2 else 0)
        else 0)
      = (splitWs (lowerList q)).map (fun w =>
        (if listIncludes (lowerList item.text) w then (3 : Int) else 0) +
        (if literalBoundaryTest item.text w then 2 else 0)) := by
    apply List.map_congr_left
    intro w hw
    rw [wordBoundaryTest_eq_literal (hmf w hw)]
    by_cases h1 : listIncludes (lowerList item.text) w = true
    · simp [h1]
    · have h2 : literalBoundaryTest item.text w = false := by
        cases h2 : literalBoundaryTest item.text w with
        | false => rfl
        | true => exact absurd (listIncludes_of_literalBoundaryTest h2) (by simp [h1])
      simp [h1, h2]
  rw [hmap]
  by_cases hfz : fuzzyMatch (lowerList item.text) (lowerList q) = true
  · have hsub : List.Sublist (lowerList q) (lowerList item.text) :=
      (fuzzyMatch_iff_sublist _ _).mp hfz
    by_cases hpre : (lowerList q).isPrefixOf (lowerList item.text) = true
    · have hinc := listIncludes_of_isPrefixOf hpre
      simp [hfz, hsub, hpre, hinc]
    · by_cases hinc : listIncludes (lowerList item.text) (lowerList q) = true <;>
        simp [hfz, hsub, hpre, hinc] <;> ring
  · have hsub : ¬ List.Sublist (lowerList q) (lowerList item.text) := fun hs =>
      absurd ((fuzzyMatch_iff_sublist _ _).mpr hs) (by simp [hfz])
    by_cases hpre : (lowerList q).isPrefixOf (lowerList item.text) = true
    · have hinc := listIncludes_of_isPrefixOf hpre
      simp [hfz, hsub, hpre, hinc]
    · by_cases hinc : listIncludes (lowerList item.text) (lowerList q) = true <;>
        simp [hfz, hsub, hpre, hinc] <;> ring

/-- The push-if-positive fold of `fuzzySearch` builds the filtered scored
list in index order. -/
theorem foldl_push_eq (score : IndexEntry → Int) (index : List IndexEntry) :
    ∀ acc : List (IndexEntry × Int),
    index.foldl (fun rs item =>
        let s := score item
        if 0 < s then rs ++ [(item, s)] else rs) acc
      = acc ++ (index.map (fun e => (e, score e))).filter (fun p => !decide (p.2 ≤ 0)) := by
  induction index with
  | nil => intro acc; simp
  | cons e es ih =>
    intro acc
    simp only [List.foldl_cons, List.map_cons, List.filter_cons]
    by_cases h : 0 < score e
    · have hd : (!decide ((e, score e).2 ≤ 0)) = true := by
        simp
        omega
      rw [if_pos h, ih, hd]
      simp
    · have hd : (!decide ((e, score e).2 ≤ 0)) = false := by
        simp
        omega
      rw [if_neg h, ih, hd]
      simp

/-- Counterexample to C5 as stated: the query `a.c` has a single word
containing the regex metacharacter `.`.  On the entry text `ba.c a1c` the
interpolated regex `\ba.c` matches the second word (`.` is a wildcard, so
`a1c` matches at the space boundary) and `fuzzySearch` scores 17, while
the specification's formula — the word occurring literally at a boundary —
yields 15, so the two result lists differ. -/
theorem claim_C5_counterexample :
    entryScore (lowerList "a.c".data) (splitWs (lowerList "a.c".data))
        ⟨"ba.c a1c".data, 1⟩ = 17 ∧
    claimScore "a.c".data ⟨"ba.c a1c".data, 1⟩ = 15 ∧
    fuzzySearch "a.c".data [⟨"ba.c a1c".data, 1⟩] 10
      = [(⟨"ba.c a1c".data, 1⟩, 17)] ∧
    claimResults "a.c".data [⟨"ba.c a1c".data, 1⟩] 10
      = [(⟨"ba.c a1c".data, 1⟩, 15)] ∧
    ¬ (fuzzySearch "a.c".data [⟨"ba.c a1c".data, 1⟩] 10
        = claimResults "a.c".data [⟨"ba.c a1c".data, 1⟩] 10) := by
  decide

/-- C5 (amended): for every query whose whitespace-split words are free of
regex metacharacters, `fuzzySearch` scores every entry by the flat
specification formula (+10 contains / +5 prefix, per word +3 substring and
+2 literal word boundary, +2 ordered-subsequence match, all multiplied by
the entry's weight), discards scores ≤ 0, sorts descending by score, and
returns at most `maxResults` results, whose option defaults to 10.  For a
metacharacter word the interpolated regex diverges from the literal
formula (see the counterexample) or makes the RegExp constructor throw. -/
theorem claim_C5_fuzzySearch_formula (query : List Char) (index : List IndexEntry)
    (maxResults : Nat)
    (hmf : ∀ w ∈ splitWs (lowerList query), ∀ c ∈ w, isRegexMeta c = false) :
    fuzzySearch query index maxResults = claimResults query index maxResults ∧
    (fuzzySearch query index maxResults).length ≤ maxResults ∧
    initMaxResults none = 10 := by
  have hmain : fuzzySearch query index maxResults = claimResults query index maxResults := by
    unfold fuzzySearch claimResults
    simp only []
    rw [foldl_push_eq (fun item =>
      entryScore (lowerList query) (splitWs (lowerList query)) item) index []]
    have hfun : ∀ e ∈ index,
        (e, entryScore (lowerList query) (splitWs (lowerList query)) e)
          = (e, claimScore query e) := by
      intro e _
      rw [entryScore_eq_claimScore query e hmf]
    rw [List.nil_append, List.map_congr_left hfun]
  refine ⟨hmain, ?_, rfl⟩
  unfold fuzzySearch
  exact List.length_take_le _ _

/-- Witness for the amended C5 at a concrete input: the metacharacter-free
query `install` on the three-entry example index. -/
theorem claim_C5_witness :
    (∀ w ∈ splitWs (lowerList "install".data), ∀ c ∈ w, isRegexMeta c = false) ∧
    (fuzzySearch "install".data
        [⟨"Getting Started".data, 6⟩, ⟨"Installation".data, 5⟩,
         ⟨"Run the installer from your terminal to begin setup quickly.".data, 1⟩] 10
      = claimResults "install".data
        [⟨"Getting Started".data, 6⟩, ⟨"Installation".data, 5⟩,
         ⟨"Run the installer from your terminal to begin setup quickly.".data, 1⟩] 10 ∧
    (fuzzySearch "install".data
        [⟨"Getting Started".data, 6⟩, ⟨"Installation".data, 5⟩,
         ⟨"Run the installer from your terminal to begin setup quickly.".data, 1⟩]
        10).length ≤ 10 ∧
    initMaxResults none = 10) :=
  ⟨by decide,
   claim_C5_fuzzySearch_formula "install".data
     [⟨"Getting Started".data, 6⟩, ⟨"Installation".data, 5⟩,
      ⟨"Run the installer from your terminal to begin setup quickly.".data, 1⟩] 10
     (by decide)⟩

/-- Joint characterization of the whitespace-split scanners: every
produced chunk is `acc.reverse` extended by a prefix of the remaining
input (for the chunk in progress) or an infix of the remaining input. -/
theorem splitWsAux_skip_isInfix :
    ∀ fuel : Nat, ∀ l : List Char, l.length ≤ fuel →
      (∀ acc w, w ∈ splitWsAux l acc →
        (∃ pr, pr <+: l ∧ w = acc.reverse ++ pr) ∨ w <:+: l) ∧
      (∀ w, w ∈ splitWsSkip l → w <:+: l) := by
  intro fuel
  induction fuel with
  | zero =>
    intro l hl
    have hnil : l = [] := List.length_eq_zero.mp (Nat.le_zero.mp hl)
    subst hnil
    constructor
    · intro acc w hw
      simp only [splitWsAux, List.mem_singleton] at hw
      exact Or.inl ⟨[], List.nil_prefix, by simp [hw]⟩
    · intro w hw
      simp only [splitWsSkip, List.mem_singleton] at hw
      simp [hw]
  | succ n ih =>
    intro l hl
    cases l with
    | nil =>
      constructor
      · intro acc w hw
        simp only [splitWsAux, List.mem_singleton] at hw
        exact Or.inl ⟨[], List.nil_prefix, by simp [hw]⟩
      · intro w hw
        simp only [splitWsSkip, List.mem_singleton] at hw
        simp [hw]
    | cons c cs =>
      have hcs : cs.length ≤ n := by
        simp only [List.length_cons] at hl
        omega
      obtain ⟨ihA, ihB⟩ := ih cs hcs
      constructor
      · intro acc w hw
        simp only [splitWsAux] at hw
        by_cases hc : isWsChar c = true
        · rw [if_pos hc] at hw
          rcases List.mem_cons.mp hw with rfl | hw2
          · exact Or.inl ⟨[], List.nil_prefix, by simp⟩
          · exact Or.inr (List.infix_cons (ihB w hw2))
        · rw [if_neg hc] at hw
          rcases ihA (c :: acc) w hw with ⟨pr, hpr, hwe⟩ | hinf
          · obtain ⟨t2, ht2⟩ := hpr
            refine Or.inl ⟨c :: pr, ⟨t2, by simp [ht2]⟩, ?_⟩
            rw [hwe]
            simp
          · exact Or.inr (List.infix_cons hinf)
      · intro w hw
        simp only [splitWsSkip] at hw
        by_cases hc : isWsChar c = true
        · rw [if_pos hc] at hw
          exact List.infix_cons (ihB w hw)
        · rw [if_neg hc] at hw
          rcases ihA [c] w hw with ⟨pr, hpr, hwe⟩ | hinf
          · obtain ⟨t2, ht2⟩ := hpr
            refine List.IsPrefix.isInfix ⟨t2, ?_⟩
            rw [hwe]
            simp [ht2]
          · exact List.infix_cons hinf

/-- Every whitespace-split chunk of a string is an infix of it. -/
theorem splitWs_isInfix (l : List Char) : ∀ w ∈ splitWs l, w <:+: l := by
  intro w hw
  obtain ⟨hA, _⟩ := splitWsAux_skip_isInfix l.length l le_rfl
  rcases hA [] w hw with ⟨pr, hpr, hwe⟩ | hinf
  · rw [hwe]
    simpa using hpr.isInfix
  · exact hinf

/-- Lower bound for a sum over a list with a uniform elementwise bound. -/
theorem le_listSum_of_forall (c : Int) (f : List Char → Int) (l : List (List Char))
    (h : ∀ x ∈ l, c ≤ f x) : c * l.length ≤ (l.map f).sum := by
  induction l with
  | nil => simp
  | cons x xs ih =>
    simp only [List.map_cons, List.sum_cons, List.length_cons]
    have h1 := h x (by simp)
    have h2 := ih (fun y hy => h y (by simp [hy]))
    have h3 : c * ((xs.length : Int) + 1) = c + c * xs.length := by ring
    push_cast
    rw [h3]
    exact add_le_add h1 h2

/-- Upper bound for a sum over a list with a uniform elementwise bound. -/
theorem listSum_le_of_forall (c : Int) (f : List Char → Int) (l : List (List Char))
    (h : ∀ x ∈ l, f x ≤ c) : (l.map f).sum ≤ c * l.length := by
  induction l with
  | nil => simp
  | cons x xs ih =>
    simp only [List.map_cons, List.sum_cons, List.length_cons]
    have h1 := h x (by simp)
    have h2 := ih (fun y hy => h y (by simp [hy]))
    have h3 : c * ((xs.length : Int) + 1) = c + c * xs.length := by ring
    push_cast
    rw [h3]
    exact add_le_add h1 h2

/-- Counterexample to C6 as stated: for the three-word query `#a #b #c`,
the entry `#a #b #cXXXXXXX` (which contains the query as an exact prefix)
scores 26 while the same-weight, same-length entry `x#a #b #cd#be#c`
(which contains the query only as a non-prefix substring) scores 27 — its
padding supplies word-boundary bonuses unavailable to the prefix entry —
so `fuzzySearch` ranks the non-prefix entry first. -/
theorem claim_C6_counterexample :
    (⟨"#a #b #cXXXXXXX".data, 1⟩ : IndexEntry).weight
        = (⟨"x#a #b #cd#be#c".data, 1⟩ : IndexEntry).weight ∧
    (⟨"#a #b #cXXXXXXX".data, 1⟩ : IndexEntry).text.length
        = (⟨"x#a #b #cd#be#c".data, 1⟩ : IndexEntry).text.length ∧
    (lowerList "#a #b #c".data).isPrefixOf (lowerList "#a #b #cXXXXXXX".data) = true ∧
    listIncludes (lowerList "x#a #b #cd#be#c".data) (lowerList "#a #b #c".data) = true ∧
    (lowerList "#a #b #c".data).isPrefixOf (lowerList "x#a #b #cd#be#c".data) = false ∧
    ¬ (entryScore (lowerList "#a #b #c".data) (splitWs (lowerList "#a #b #c".data))
          ⟨"x#a #b #cd#be#c".data, 1⟩
        ≤ entryScore (lowerList "#a #b #c".data) (splitWs (lowerList "#a #b #c".data))
          ⟨"#a #b #cXXXXXXX".data, 1⟩) ∧
    fuzzySearch "#a #b #c".data
        [⟨"#a #b #cXXXXXXX".data, 1⟩, ⟨"x#a #b #cd#be#c".data, 1⟩] 10
      = [(⟨"x#a #b #cd#be#c".data, 1⟩, 27), (⟨"#a #b #cXXXXXXX".data, 1⟩, 26)] := by
  decide

/-- C6 (amended): for a fixed query that whitespace-splits into at most
two words, an index entry whose text contains the query as an exact prefix
scores at least as much under `fuzzySearch`'s `entryScore` as an
otherwise-identical entry (same nonnegative weight, same text length)
containing the query only as a non-prefix substring.  With three or more
query words the word-boundary bonuses can overturn the +5 prefix bonus, as
the counterexample shows. -/
theorem claim_C6_prefix_monotonic (q : List Char) (e1 e2 : IndexEntry)
    (hw : e1.weight = e2.weight) (hw0 : 0 ≤ e2.weight)
    (hlen : e1.text.length = e2.text.length)
    (hpre : (lowerList q).isPrefixOf (lowerList e1.text) = true)
    (hinc : listIncludes (lowerList e2.text) (lowerList q) = true)
    (hnpre : (lowerList q).isPrefixOf (lowerList e2.text) = false)
    (hk : (splitWs (lowerList q)).length ≤ 2) :
    entryScore (lowerList q) (splitWs (lowerList q)) e2
      ≤ entryScore (lowerList q) (splitWs (lowerList q)) e1 := by
  have hql_t1 : lowerList q <:+: lowerList e1.text :=
    (List.isPrefixOf_iff_prefix.mp hpre).isInfix
  have hql_t2 : lowerList q <:+: lowerList e2.text :=
    (listIncludes_iff_isInfix _ _).mp hinc
  have hinc1 : listIncludes (lowerList e1.text) (lowerList q) = true :=
    listIncludes_of_isPrefixOf hpre
  have hfz1 : fuzzyMatch (lowerList e1.text) (lowerList q) = true :=
    (fuzzyMatch_iff_sublist _ _).mpr hql_t1.sublist
  have hfz2 : fuzzyMatch (lowerList e2.text) (lowerList q) = true :=
    (fuzzyMatch_iff_sublist _ _).mpr hql_t2.sublist
  have hS1 : (3 : Int) * ((splitWs (lowerList q)).length : Int)
      ≤ ((splitWs (lowerList q)).map (fun w =>
          if listIncludes (lowerList e1.text) w then
            (3 : Int) + (if wordBoundaryTest e1.text w then 2 else 0)
          else 0)).sum := by
    apply le_listSum_of_forall
    intro x hx
    have hxinc : listIncludes (lowerList e1.text) x = true :=
      (listIncludes_iff_isInfix _ _).mpr ((splitWs_isInfix _ x hx).trans hql_t1)
    by_cases hb : wordBoundaryTest e1.text x = true <;> simp [hxinc, hb]
  have hS2 : ((splitWs (lowerList q)).map (fun w =>
          if listIncludes (lowerList e2.text) w then
            (3 : Int) + (if wordBoundaryTest e2.text w then 2 else 0)
          else 0)).sum
      ≤ (5 : Int) * ((splitWs (lowerList q)).length : Int) := by
    apply listSum_le_of_forall
    intro x _
    by_cases h1 : listIncludes (lowerList e2.text) x = true <;>
      by_cases h2 : wordBoundaryTest e2.text x = true <;> simp [h1, h2]
  unfold entryScore
  simp only []
  rw [wordFold_eq_sum_nested e1.text (splitWs (lowerList q)),
    wordFold_eq_sum_nested e2.text (splitWs (lowerList q))]
  simp only [hinc1, hpre, hinc, hnpre, hfz1, hfz2, if_true, Bool.false_eq_true, if_false]
  rw [hw]
  apply mul_le_mul_of_nonneg_right ?_ hw0
  omega

/-- Witness for the amended C6 at a concrete input: single-word query
`#a`, prefix entry `#aZZ` (score 20) against non-prefix entry `z#az`
(score 17). -/
theorem claim_C6_amended_witness :
    ((⟨"#aZZ".data, 1⟩ : IndexEntry).weight = (⟨"z#az".data, 1⟩ : IndexEntry).weight) ∧
    (0 : Int) ≤ (⟨"z#az".data, 1⟩ : IndexEntry).weight ∧
    (⟨"#aZZ".data, 1⟩ : IndexEntry).text.length
      = (⟨"z#az".data, 1⟩ : IndexEntry).text.length ∧
    (lowerList "#a".data).isPrefixOf (lowerList "#aZZ".data) = true ∧
    listIncludes (lowerList "z#az".data) (lowerList "#a".data) = true ∧
    (lowerList "#a".data).isPrefixOf (lowerList "z#az".data) = false ∧
    (splitWs (lowerList "#a".data)).length ≤ 2 ∧
    entryScore (lowerList "#a".data) (splitWs (lowerList "#a".data)) ⟨"z#az".data, 1⟩
      ≤ entryScore (lowerList "#a".data) (splitWs (lowerList "#a".data)) ⟨"#aZZ".data, 1⟩ :=
  ⟨rfl, by decide, by decide, by decide, by decide, by decide, by decide,
   claim_C6_prefix_monotonic "#a".data ⟨"#aZZ".data, 1⟩ ⟨"z#az".data, 1⟩ rfl (by decide)
     (by decide) (by decide) (by decide) (by decide) (by decide)⟩

end OMC
